import Mathlib

/-!
A verification development for the doxyfront symbol-graph loader
(`doxyfront/source.py`, with the entity model of `doxyfront/model.py` and the
locator assignment of `doxyfront/doctree.py`).

Definitions are a shallow embedding of the Python code.  Python strings are
sequences of code points, so string operations (`startswith`, slicing,
`lower`) are modelled on `List Char` data rather than Lean's byte-positioned
`String` primitives.  The object graph is modelled as an arena: a `Store` is a
list of definitions and every inter-definition edge (resolved reference,
`scope_parent`, `file_parent`) is a plain index into that list, mirroring how
the Python code shares mutable `Def` objects.
-/

namespace Dox

/-! ### Python-string helpers (code-point semantics) -/

/-- Python `s.startswith(p)`: `p.data` is a prefix of `s.data`. -/
def pyStartsWith (s p : String) : Bool :=
  p.data.isPrefixOf s.data

/-- Python `s[k:]`: drop the first `k` code points. -/
def pyDrop (s : String) (k : Nat) : String :=
  ⟨s.data.drop k⟩

/-- Python `len(s)` in code points. -/
def pyLen (s : String) : Nat :=
  s.data.length

/-- ASCII lower-casing of one character (the fragment of Python `str.lower`
exercised by identifiers). -/
def lowerChar (c : Char) : Char :=
  if 'A' ≤ c ∧ c ≤ 'Z' then Char.ofNat (c.toNat + 32) else c

/-- Python `s.lower()` restricted to ASCII case folding. -/
def pyLower (s : String) : String :=
  ⟨s.data.map lowerChar⟩

/-! ### References (`source.py`: `Ref`, `SymbolicRef`, `UnresolvedRef`,
`ResolvedRef`)

`SymbolicRef.id` is `Option String` because `CompoundDef.deserialize` builds
`SymbolicRef(child.id, ...)` and `child.id` may be `None` when the `id`
attribute is missing.  A `ResolvedRef` holds the index of its target in the
store. -/

inductive Ref where
  | symbolic (id : Option String) (nm : Option String)
  | unresolved (nm : Option String)
  | resolved (idx : Nat)
deriving DecidableEq, Repr

def Ref.isSymbolic : Ref → Bool
  | .symbolic _ _ => true
  | _ => false

/-- The transient id-to-definition dictionary of `_resolve_refs`, with values
replaced by store indices.  Built by consing, so the head-first lookup sees the
last-inserted binding for a key, matching `dict` overwrite semantics. -/
abbrev RefMap := List (Option String × Nat)

def mapLookup (m : RefMap) (k : Option String) : Option Nat :=
  (m.find? (fun p => decide (p.1 = k))).map (·.2)

/-- `Ref.resolve` / `SymbolicRef.resolve` from `source.py`: a symbolic
reference becomes resolved when its id is in the map and unresolved otherwise;
unresolved and resolved references return themselves. -/
def Ref.resolve (m : RefMap) : Ref → Ref
  | .symbolic id nm =>
      match mapLookup m id with
      | some i => .resolved i
      | none => .unresolved nm
  | .unresolved nm => .unresolved nm
  | .resolved i => .resolved i

/-! ### Markup fragments (`source.py`: `Fragment` and subclasses)

`node` is the bare root `Fragment` of a `Markup`; the other constructors carry
the payload of the corresponding subclass plus the inherited `children`. -/

inductive FormatVariant where
  | paragraph | code | strong | emphasis | itemize | enumerate | item
deriving DecidableEq, Repr

inductive Frag where
  | text (s : Option String)
  | node (cs : List Frag)
  | format (v : FormatVariant) (cs : List Frag)
  | xref (r : Ref) (cs : List Frag)
  | link (url : Option String) (cs : List Frag)
  | sect (kind : Option String) (cs : List Frag)
deriving Repr

/-! `Fragment.resolve_refs` and `RefFragment.resolve_refs`: structural
recursion over children; a `RefFragment` additionally replaces its own `ref`
by `ref.resolve(defs)`. -/

mutual

def resolveFrag (m : RefMap) : Frag → Frag
  | .text s => .text s
  | .node cs => .node (resolveFrags m cs)
  | .format v cs => .format v (resolveFrags m cs)
  | .xref r cs => .xref (r.resolve m) (resolveFrags m cs)
  | .link u cs => .link u (resolveFrags m cs)
  | .sect k cs => .sect k (resolveFrags m cs)

def resolveFrags (m : RefMap) : List Frag → List Frag
  | [] => []
  | f :: fs => resolveFrag m f :: resolveFrags m fs

end

/-! All references held inside a markup tree. -/

mutual

def fragRefs : Frag → List Ref
  | .text _ => []
  | .node cs => fragsRefs cs
  | .format _ cs => fragsRefs cs
  | .xref r cs => r :: fragsRefs cs
  | .link _ cs => fragsRefs cs
  | .sect _ cs => fragsRefs cs

def fragsRefs : List Frag → List Ref
  | [] => []
  | f :: fs => fragRefs f ++ fragsRefs fs

end

/-- `_maybe_resolve_refs` on an optional markup tree. -/
def resolveMaybe (m : RefMap) : Option Frag → Option Frag
  | none => none
  | some f => some (resolveFrag m f)

theorem resolve_not_symbolic (m : RefMap) (r : Ref) : (r.resolve m).isSymbolic = false := by
  cases r with
  | symbolic id nm =>
      simp only [Ref.resolve]
      cases mapLookup m id <;> rfl
  | unresolved nm => rfl
  | resolved i => rfl

mutual

theorem fragRefs_resolveFrag (m : RefMap) :
    ∀ f : Frag, ∀ r ∈ fragRefs (resolveFrag m f), r.isSymbolic = false
  | .text s => by simp [resolveFrag, fragRefs]
  | .node cs => by
      simpa only [resolveFrag, fragRefs] using fragsRefs_resolveFrags m cs
  | .format v cs => by
      simpa only [resolveFrag, fragRefs] using fragsRefs_resolveFrags m cs
  | .xref r cs => by
      intro r' hr'
      simp only [resolveFrag, fragRefs, List.mem_cons] at hr'
      rcases hr' with h | h
      · subst h; exact resolve_not_symbolic m r
      · exact fragsRefs_resolveFrags m cs r' h
  | .link u cs => by
      simpa only [resolveFrag, fragRefs] using fragsRefs_resolveFrags m cs
  | .sect k cs => by
      simpa only [resolveFrag, fragRefs] using fragsRefs_resolveFrags m cs

theorem fragsRefs_resolveFrags (m : RefMap) :
    ∀ fs : List Frag, ∀ r ∈ fragsRefs (resolveFrags m fs), r.isSymbolic = false
  | [] => by simp [resolveFrags, fragsRefs]
  | f :: fs => by
      intro r hr
      simp only [resolveFrags, fragsRefs, List.mem_append] at hr
      rcases hr with h | h
      · exact fragRefs_resolveFrag m f r h
      · exact fragsRefs_resolveFrags m fs r h

end

theorem fragRefs_resolveMaybe (m : RefMap) (o : Option Frag) :
    ∀ f ∈ resolveMaybe m o, ∀ r ∈ fragRefs f, r.isSymbolic = false := by
  cases o with
  | none => simp [resolveMaybe]
  | some f =>
      intro g hg
      simp only [resolveMaybe, Option.mem_def, Option.some.injEq] at hg
      subst hg
      exact fragRefs_resolveFrag m f

/-! ### Parameters, includes, inheritance (`source.py`: `Param`, `Include`,
`Inheritance`) -/

structure Param where
  name : Option String := none
  type : Option Frag := none
  dfault : Option Frag := none
deriving Repr

/-- `Param.resolve_refs`: resolves the `type` and `default` markups. -/
def resolveParam (m : RefMap) (p : Param) : Param :=
  { p with type := resolveMaybe m p.type, dfault := resolveMaybe m p.dfault }

def paramRefs (p : Param) : List Ref :=
  ((p.type.map fragRefs).getD []) ++ ((p.dfault.map fragRefs).getD [])

structure Include where
  file : Option Ref := none
  lcl : Option Bool := none
deriving DecidableEq, Repr

/-- `Include.resolve_refs`: `if self.file: self.file = self.file.resolve(defs)`.
A `None` file reference is left alone. -/
def resolveInclude (m : RefMap) (i : Include) : Include :=
  { i with file := match i.file with
      | none => none
      | some r => some (r.resolve m) }

def includeRefs (i : Include) : List Ref :=
  i.file.toList

structure Inheritance where
  ref : Option Ref := none
  virt : Option Bool := none
deriving DecidableEq, Repr

/-- `Inheritance.resolve_refs`: guards against a `None` ref. -/
def resolveInheritance (m : RefMap) (b : Inheritance) : Inheritance :=
  { b with ref := match b.ref with
      | none => none
      | some r => some (r.resolve m) }

def inheritanceRefs (b : Inheritance) : List Ref :=
  b.ref.toList

/-! ### Definitions

One kind tag per concrete Python `Def` class of `source.py`/`model.py`.
`enumVal` stands for both `source.EnumValueDef` and `model.EnumVariantDef`;
`index` is `model.IndexDef` (the synthetic root compound). -/

inductive DefKind where
  | mac | typedef | func | var | prop | enumVal | enumK | friendK
  | dir | file | nsp | grp | pageK | cls | index
deriving DecidableEq, Repr

/-- Compound classes of `source.py` (`CompoundDef` subclasses).  Note that in
`source.py`, `EnumDef` is not a compound: its variants live in a separate
`values` list, not in `members`. -/
def isCompound : DefKind → Bool
  | .dir | .file | .nsp | .grp | .pageK | .cls | .index => true
  | _ => false

/-- `SingleDef` marker.  Every concrete `Def` class in `source.py` inherits
`SingleDef` (including all compounds), so only the synthetic `IndexDef` of
`model.py` — which does not — is excluded. -/
def isSingleDef : DefKind → Bool
  | .index => false
  | _ => true

/-- The non-recursive fields of a definition: the union of the attributes of
the Python `Def` classes.  A field that a given class does not have is `none`
or `[]` for that kind.  `scope_parent`/`file_parent` are arena indices.
`include1` is the Python attribute `include` of `CompoundSingleDef`. -/
structure DefCore where
  kind : DefKind
  id : Option String := none
  name : Option String := none
  qualified_name : Option String := none
  brief_description : Option Frag := none
  detailed_description : Option Frag := none
  in_body_text : Option Frag := none
  substitution : Option Frag := none
  type : Option Frag := none
  definition : Option Frag := none
  initializer : Option Frag := none
  return_type : Option Frag := none
  underlying_type : Option Frag := none
  params : List (Option String) := []
  template_params : List Param := []
  parameters : List Param := []
  members : List Ref := []
  includes : List Include := []
  include1 : Option Include := none
  bases : List Inheritance := []
  href : Option String := none
  page : Option String := none
  scope_parent : Option Nat := none
  file_parent : Option Nat := none
deriving Repr

/-- A definition: its flat fields plus, for `EnumDef`, the owned list of
enum-value definitions (`EnumDef.values`). -/
inductive Def where
  | mk (core : DefCore) (values : List Def)
deriving Repr

def Def.core : Def → DefCore
  | .mk c _ => c

def Def.values : Def → List Def
  | .mk _ vs => vs

/-! Per-kind reference resolution, mirroring each class's `resolve_refs`
override in `source.py`.  The base `Def.resolve_refs` resolves the three
description markups for every kind.  Note `VariableDef.resolve_refs` and
`PropertyDef.resolve_refs` resolve `self.type`, not `return_type`, even though
their `deserialize` stores the parsed `<type>` markup into `return_type` —
that is the resolution gap exhibited below. -/

def resolveCore (m : RefMap) (c : DefCore) : DefCore :=
  let c0 := { c with
    brief_description := resolveMaybe m c.brief_description,
    detailed_description := resolveMaybe m c.detailed_description,
    in_body_text := resolveMaybe m c.in_body_text }
  match c.kind with
  | .mac => { c0 with substitution := resolveMaybe m c0.substitution }
  | .typedef => { c0 with
      type := resolveMaybe m c0.type,
      definition := resolveMaybe m c0.definition }
  | .func => { c0 with
      return_type := resolveMaybe m c0.return_type,
      template_params := c0.template_params.map (resolveParam m),
      parameters := c0.parameters.map (resolveParam m) }
  | .var => { c0 with
      type := resolveMaybe m c0.type,
      initializer := resolveMaybe m c0.initializer }
  | .prop => { c0 with type := resolveMaybe m c0.type }
  | .enumVal => { c0 with initializer := resolveMaybe m c0.initializer }
  | .enumK => { c0 with underlying_type := resolveMaybe m c0.underlying_type }
  | .friendK => { c0 with definition := resolveMaybe m c0.definition }
  | .dir => { c0 with members := c0.members.map (Ref.resolve m) }
  | .file => { c0 with
      members := c0.members.map (Ref.resolve m),
      includes := c0.includes.map (resolveInclude m) }
  | .nsp => { c0 with members := c0.members.map (Ref.resolve m) }
  | .grp => { c0 with members := c0.members.map (Ref.resolve m) }
  | .pageK => { c0 with members := c0.members.map (Ref.resolve m) }
  | .cls => { c0 with
      members := c0.members.map (Ref.resolve m),
      include1 := c0.include1.map (resolveInclude m),
      template_params := c0.template_params.map (resolveParam m),
      bases := c0.bases.map (resolveInheritance m) }
  | .index => { c0 with members := c0.members.map (Ref.resolve m) }

/-! `EnumDef.resolve_refs` additionally resolves every value definition. -/

mutual

def resolveDef (m : RefMap) : Def → Def
  | .mk c vs =>
      .mk (resolveCore m c) (if c.kind = .enumK then resolveDefs m vs else vs)

def resolveDefs (m : RefMap) : List Def → List Def
  | [] => []
  | d :: ds => resolveDef m d :: resolveDefs m ds

end

/-! Every reference structurally reachable from a definition: members,
includes, inheritance bases, parameter markups, every markup tree attribute,
and (recursively) the enum value definitions. -/

def optFragRefs (o : Option Frag) : List Ref :=
  (o.map fragRefs).getD []

def coreRefs (c : DefCore) : List Ref :=
  optFragRefs c.brief_description ++ optFragRefs c.detailed_description ++
  optFragRefs c.in_body_text ++ optFragRefs c.substitution ++
  optFragRefs c.type ++ optFragRefs c.definition ++
  optFragRefs c.initializer ++ optFragRefs c.return_type ++
  optFragRefs c.underlying_type ++
  (c.template_params.map paramRefs).flatten ++
  (c.parameters.map paramRefs).flatten ++
  c.members ++
  (c.includes.map includeRefs).flatten ++
  ((c.include1.map includeRefs).getD []) ++
  (c.bases.map inheritanceRefs).flatten

mutual

def defRefs : Def → List Ref
  | .mk c vs => coreRefs c ++ defsRefs vs

def defsRefs : List Def → List Ref
  | [] => []
  | d :: ds => defRefs d ++ defsRefs ds

end

/-! ### The store and `_resolve_refs` -/

abbrev Store := List Def

/-- `dict((d.id, d) for d in def_list)` with values as indices: built by
consing index bindings in list order, so head-first lookup returns the newest
binding, i.e. dict overwrite semantics. -/
def buildMap (s : Store) : RefMap :=
  (List.range s.length).foldl
    (fun m i => ((s.getD i (.mk { kind := .var } [])).core.id, i) :: m) []

/-- `_resolve_refs`: build the id map from the complete list, then resolve
every definition's references.  Each definition only mutates its own fields,
so the sequential Python loop is a map. -/
def resolveStore (s : Store) : Store :=
  s.map (resolveDef (buildMap s))

/-! ### A concrete input exhibiting the `return_type` resolution gap

`VariableDef.deserialize` stores the parsed `<type>` markup into
`instance.return_type`, but `VariableDef.__init__` declares `self.type` and
`VariableDef.resolve_refs` resolves `self.type` and `self.initializer` only —
so the references inside a variable's type markup are never resolved
(`PropertyDef` has the same slip).  The store below is what parsing a class
`A` and a file with a variable `x` of type `A` yields. -/

def c1VarDef : Def :=
  .mk { kind := .var, id := some "v1", qualified_name := some "x",
        return_type := some (.node [.xref (.symbolic (some "c1") (some "A"))
          [.text (some "A")]]) } []

def c1ClassDef : Def :=
  .mk { kind := .cls, id := some "c1", qualified_name := some "A" } []

def c1Store : Store := [c1VarDef, c1ClassDef]

/-- C1: the claim states that after load completes, every Reference reachable
from any retained Definition is resolved or unresolved and no symbolic
reference survives.  Evaluating `_resolve_refs` on `c1Store` — a variable `x`
whose `<type>` markup references the retained class `A` — shows the symbolic
reference inside the variable's type markup survives resolution untouched,
because `VariableDef.deserialize` stores that markup in `return_type`, a field
`VariableDef.resolve_refs` never visits.  The claim fails on the code. -/
theorem C1_symbolic_ref_survives_resolution :
    ((resolveStore c1Store).map (fun d => (defRefs d).any Ref.isSymbolic))
      = [true, false] := rfl

/-! ### Store access and field updates -/

def defaultDef : Def := .mk { kind := .var } []

def sget (s : Store) (i : Nat) : Def :=
  s.getD i defaultDef

def Def.withName (d : Def) (v : Option String) : Def :=
  .mk { d.core with name := v } d.values

def Def.withScopeParent (d : Def) (v : Option Nat) : Def :=
  .mk { d.core with scope_parent := v } d.values

def Def.withFileParent (d : Def) (v : Option Nat) : Def :=
  .mk { d.core with file_parent := v } d.values

def Def.withId (d : Def) (v : Option String) : Def :=
  .mk { d.core with id := v } d.values

def Def.withMembers (d : Def) (v : List Ref) : Def :=
  .mk { d.core with members := v } d.values

def setName (s : Store) (i : Nat) (v : Option String) : Store :=
  s.set i ((sget s i).withName v)

def setScopeParent (s : Store) (i : Nat) (p : Nat) : Store :=
  s.set i ((sget s i).withScopeParent (some p))

def setFileParent (s : Store) (i : Nat) (p : Nat) : Store :=
  s.set i ((sget s i).withFileParent (some p))

theorem sget_eq_getElem? (s : Store) (i : Nat) :
    sget s i = (s[i]?).getD defaultDef := by
  simp [sget, List.getD_eq_getElem?_getD]

theorem sget_set_self (s : Store) (i : Nat) (d : Def) (h : i < s.length) :
    sget (s.set i d) i = d := by
  simp [sget_eq_getElem?, List.getElem?_set_self h]

theorem sget_set_ne (s : Store) (i j : Nat) (d : Def) (h : i ≠ j) :
    sget (s.set i d) j = sget s j := by
  simp [sget_eq_getElem?, List.getElem?_set_ne h]

/-! ### `_assign_parents` (source.py)

For a File or Directory compound, every resolved member that is a `SingleDef`
gets its `file_parent` set to the compound; for a Namespace or Class compound,
every resolved member gets its `scope_parent` set to the compound.  The load
runs this over all definitions in list order, so on shared members the last
assignment wins. -/

def assignParentsOne (s : Store) (r : Nat) : Store :=
  let d := sget s r
  if d.core.kind = .file ∨ d.core.kind = .dir then
    d.core.members.foldl
      (fun t m => match m with
        | .resolved j =>
            if isSingleDef (sget t j).core.kind then setFileParent t j r else t
        | _ => t) s
  else if d.core.kind = .nsp ∨ d.core.kind = .cls then
    d.core.members.foldl
      (fun t m => match m with
        | .resolved j => setScopeParent t j r
        | _ => t) s
  else s

def assignParents (s : Store) : Store :=
  (List.range s.length).foldl assignParentsOne s

/-! ### Root synthesis

Modelled from the spec: the root-synthesis step of §4.3 is absent from src/
(no code constructs or attaches `model.IndexDef`; only the class declaration
exists), so it is modelled from the spec's words: after the scan, every
definition still lacking a `scope_parent` and eligible for one is attached to
a synthetic Index root and registered as that root's member preserving scan
order; symmetrically for `file_parent` and the file-hierarchy root.  Per the
spec's contract ("exactly one `scope_parent` and one `file_parent` per
Definition"), every non-root definition is eligible for both relations. -/

def scopeEligible (k : DefKind) : Bool := k ≠ .index

def fileEligible (k : DefKind) : Bool := k ≠ .index

def indexRoot (id nm : String) : Def :=
  .mk { kind := .index, id := some id, name := some nm } []

def scopeOrphansOf (s : Store) : List Nat :=
  (List.range s.length).filter
    (fun i => scopeEligible (sget s i).core.kind && (sget s i).core.scope_parent.isNone)

def fileOrphansOf (s : Store) : List Nat :=
  (List.range s.length).filter
    (fun i => fileEligible (sget s i).core.kind && (sget s i).core.file_parent.isNone)

/-- Attach the roots (at indices `n` and `n + 1`) to one definition that
still lacks the respective parent and is eligible. -/
def rootAttach (n : Nat) (d : Def) : Def :=
  let d1 := if scopeEligible d.core.kind && d.core.scope_parent.isNone
            then d.withScopeParent (some n) else d
  if fileEligible d1.core.kind && d1.core.file_parent.isNone
  then d1.withFileParent (some (n + 1)) else d1

/-- Modelled from the spec: attach both synthetic Index roots (see above). -/
def synthesizeRoots (s : Store) : Store :=
  s.map (rootAttach s.length)
  ++ [(indexRoot "index" "index").withMembers ((scopeOrphansOf s).map Ref.resolved),
      (indexRoot "files" "files").withMembers ((fileOrphansOf s).map Ref.resolved)]

/-- The parent passes of the load, with the spec-modelled root synthesis. -/
def parentPipeline (s : Store) : Store :=
  synthesizeRoots (assignParents s)

theorem length_synthesizeRoots (s : Store) :
    (synthesizeRoots s).length = s.length + 2 := by
  simp [synthesizeRoots]

theorem sget_synthesizeRoots_lt (s : Store) (i : Nat) (h : i < s.length) :
    sget (synthesizeRoots s) i = rootAttach s.length (sget s i) := by
  have hs : s[i]? = some (sget s i) := by
    simp [sget_eq_getElem?, List.getElem?_eq_getElem h]
  rw [synthesizeRoots, sget_eq_getElem?, List.getElem?_append, List.length_map,
    if_pos h, List.getElem?_map, hs]
  rfl

theorem rootAttach_total (n : Nat) (d : Def) :
    (scopeEligible (rootAttach n d).core.kind = true →
      (rootAttach n d).core.scope_parent ≠ none) ∧
    (fileEligible (rootAttach n d).core.kind = true →
      (rootAttach n d).core.file_parent ≠ none) := by
  obtain ⟨c, vs⟩ := d
  simp only [rootAttach, Def.core, Def.withScopeParent, Def.withFileParent]
  cases hse : scopeEligible c.kind <;> cases hfe : fileEligible c.kind <;>
    cases hsp : c.scope_parent <;> cases hfp : c.file_parent <;>
      simp_all [Def.core]

theorem sget_synthesizeRoots_scope_root (s : Store) :
    sget (synthesizeRoots s) s.length =
      (indexRoot "index" "index").withMembers ((scopeOrphansOf s).map Ref.resolved) := by
  simp only [synthesizeRoots, sget_eq_getElem?]
  rw [List.getElem?_append_right (by simp)]
  simp

theorem sget_synthesizeRoots_file_root (s : Store) :
    sget (synthesizeRoots s) (s.length + 1) =
      (indexRoot "files" "files").withMembers ((fileOrphansOf s).map Ref.resolved) := by
  simp only [synthesizeRoots, sget_eq_getElem?]
  rw [List.getElem?_append_right (by simp)]
  simp

/-- C3: after the `_assign_parents` scan and the (spec-modelled) root
synthesis, every scope-eligible definition has a non-null `scope_parent` and
every file-eligible definition has a non-null `file_parent`; every definition
that still lacked a parent after the scan is attached to the corresponding
synthetic Index root, which registers exactly those definitions as its
members in scan order. -/
theorem C3_parent_totality (s : Store) :
    (∀ i, i < (parentPipeline s).length →
      (scopeEligible (sget (parentPipeline s) i).core.kind = true →
        (sget (parentPipeline s) i).core.scope_parent ≠ none) ∧
      (fileEligible (sget (parentPipeline s) i).core.kind = true →
        (sget (parentPipeline s) i).core.file_parent ≠ none)) ∧
    (sget (parentPipeline s) (assignParents s).length).core.members
      = (scopeOrphansOf (assignParents s)).map Ref.resolved ∧
    (sget (parentPipeline s) ((assignParents s).length + 1)).core.members
      = (fileOrphansOf (assignParents s)).map Ref.resolved := by
  set t := assignParents s with ht
  refine ⟨?_, ?_, ?_⟩
  · intro i hi
    rw [parentPipeline, ← ht] at *
    rcases lt_trichotomy i t.length with hlt | heq | hgt
    · rw [sget_synthesizeRoots_lt t i hlt]
      exact rootAttach_total t.length (sget t i)
    · subst heq
      rw [sget_synthesizeRoots_scope_root]
      constructor <;> intro hk <;>
        simp_all [Def.withMembers, Def.core, indexRoot, scopeEligible, fileEligible]
    · have h2 : i < t.length + 2 := by
        simpa [length_synthesizeRoots] using hi
      have : i = t.length + 1 := by omega
      subst this
      rw [sget_synthesizeRoots_file_root]
      constructor <;> intro hk <;>
        simp_all [Def.withMembers, Def.core, indexRoot, scopeEligible, fileEligible]
  · rw [parentPipeline, ← ht, sget_synthesizeRoots_scope_root]
    simp [Def.withMembers, Def.core]
  · rw [parentPipeline, ← ht, sget_synthesizeRoots_file_root]
    simp [Def.withMembers, Def.core]

/-- Witness for C3 at a concrete one-definition store: the lone variable gets
the scope root as parent, and the scope root's member list is exactly that
variable. -/
theorem C3_parent_totality_witness :
    (sget (parentPipeline [defaultDef]) 0).core.scope_parent ≠ none ∧
    (sget (parentPipeline [defaultDef]) 1).core.members = [Ref.resolved 0] :=
  ⟨((C3_parent_totality [defaultDef]).1 0 (by decide)).1 (by decide),
   by
     have h := (C3_parent_totality [defaultDef]).2.1
     simpa using h⟩

/-! ### `_unqualify_names` (source.py)

The pass reads `qualified_name`, `members` and the class of each definition
and writes only `name`.  The recursion is modelled with fuel: along any
Python recursion path the prefix strictly lengthens and each visited
definition's `qualified_name` must extend it, so the visited indices along a
path are distinct and `s.length + 1` fuel is always enough.

`qnStarts` is `d.qualified_name.startswith(prefix)`; a `None` qualified name
raises `AttributeError` in Python (aborting the load), and is modelled as a
non-match — a store on which the Python pass completes never takes that
branch differently. -/

def qnStarts (q : Option String) (p : String) : Bool :=
  match q with
  | some s => pyStartsWith s p
  | none => false

def qnStr (q : Option String) : String := q.getD ""

def memberIdxs (d : Def) : List Nat :=
  d.core.members.filterMap (fun r => match r with
    | .resolved j => some j
    | _ => none)

def qnOf (s : Store) (i : Nat) : Option String := (sget s i).core.qualified_name

def nameOf (s : Store) (i : Nat) : Option String := (sget s i).core.name

def kindOf (s : Store) (i : Nat) : DefKind := (sget s i).core.kind

/-- One call `_unqualify_names(d, prefix)` with `d` the definition at index
`i`: write the stripped name when the non-empty prefix matches, then recurse
into the resolved members of a compound whose qualified name matches (or when
the prefix is empty), with the compound's own qualified name plus `"::"` as
the new prefix. -/
def unqGo : Nat → Store → Nat → String → Store
  | 0, s, _, _ => s
  | fuel + 1, s, i, pre =>
      let d := sget s i
      let s1 := if pre ≠ "" ∧ qnStarts d.core.qualified_name pre = true
                then setName s i
                  (some (pyDrop (qnStr d.core.qualified_name) (pyLen pre)))
                else s
      if (pre = "" ∨ qnStarts d.core.qualified_name pre = true) ∧
          isCompound d.core.kind = true then
        (memberIdxs d).foldl
          (fun t j => unqGo fuel t j (qnStr d.core.qualified_name ++ "::")) s1
      else s1

/-- The load's pass `for d in defs: _unqualify_names(d)`. -/
def unqualifyPass (s : Store) : Store :=
  (List.range s.length).foldl (fun t i => unqGo (s.length + 1) t i "") s

/-- The load's fallback `if d.name is None: d.name = d.qualified_name`. -/
def nameFallback (s : Store) : Store :=
  s.map (fun d => if d.core.name = none then d.withName d.core.qualified_name
                  else d)

/-- The naming stage of `load`: unqualification followed by the fallback. -/
def namingPipeline (s : Store) : Store :=
  nameFallback (unqualifyPass s)

/-! The write trace of `unqGo`: the ordered list of `(index, value)` name
assignments it performs.  It reads only `qualified_name`, `members` and the
kind, never `name`, so it is invariant under name writes. -/

def traceGo : Nat → Store → Nat → String → List (Nat × String)
  | 0, _, _, _ => []
  | fuel + 1, s, i, pre =>
      let d := sget s i
      let w1 := if pre ≠ "" ∧ qnStarts d.core.qualified_name pre = true
                then [(i, pyDrop (qnStr d.core.qualified_name) (pyLen pre))]
                else []
      if (pre = "" ∨ qnStarts d.core.qualified_name pre = true) ∧
          isCompound d.core.kind = true then
        w1 ++ ((memberIdxs d).map
          (fun j => traceGo fuel s j (qnStr d.core.qualified_name ++ "::"))).flatten
      else w1

def applyWrites (w : List (Nat × String)) (s : Store) : Store :=
  w.foldl (fun t jv => setName t jv.1 (some jv.2)) s

def passTrace (s : Store) : List (Nat × String) :=
  ((List.range s.length).map (fun i => traceGo (s.length + 1) s i "")).flatten

/-! Basic store lemmas. -/

theorem sget_set (s : Store) (j i : Nat) (d : Def) :
    sget (s.set j d) i = if j = i ∧ j < s.length then d else sget s i := by
  by_cases h : j = i ∧ j < s.length
  · obtain ⟨rfl, hlen⟩ := h
    rw [if_pos ⟨rfl, hlen⟩]
    exact sget_set_self s j d hlen
  · rw [if_neg h]
    by_cases hj : j = i
    · subst hj
      have hlen : s.length ≤ j := by
        rcases Nat.lt_or_ge j s.length with hl | hg
        · exact absurd ⟨rfl, hl⟩ h
        · exact hg
      rw [List.set_eq_of_length_le hlen]
    · exact sget_set_ne s j i d hj

theorem sget_setName (s : Store) (j : Nat) (v : Option String) (i : Nat) :
    sget (setName s j v) i =
      if j = i ∧ j < s.length then (sget s i).withName v else sget s i := by
  rw [setName, sget_set]
  by_cases h : j = i ∧ j < s.length
  · rw [if_pos h, if_pos h, h.1]
  · rw [if_neg h, if_neg h]

theorem length_setName (s : Store) (j : Nat) (v : Option String) :
    (setName s j v).length = s.length := by
  simp [setName]

theorem length_applyWrites (w : List (Nat × String)) (s : Store) :
    (applyWrites w s).length = s.length := by
  induction w generalizing s with
  | nil => rfl
  | cons jv w ih =>
      rw [applyWrites, List.foldl_cons, ← applyWrites, ih, length_setName]

theorem Def.core_withName (d : Def) (v : Option String) :
    (d.withName v).core = { d.core with name := v } := by
  obtain ⟨c, vs⟩ := d
  rfl

theorem Def.withName_self (d : Def) : d.withName d.core.name = d := by
  obtain ⟨c, vs⟩ := d
  rfl

theorem Def.withName_withName (d : Def) (u v : Option String) :
    (d.withName u).withName v = d.withName v := by
  obtain ⟨c, vs⟩ := d
  rfl

theorem qnOf_setName (s : Store) (j : Nat) (v : Option String) (i : Nat) :
    qnOf (setName s j v) i = qnOf s i := by
  rw [qnOf, qnOf, sget_setName]
  split
  · next h => rw [Def.core_withName]
  · rfl

theorem kindOf_setName (s : Store) (j : Nat) (v : Option String) (i : Nat) :
    kindOf (setName s j v) i = kindOf s i := by
  rw [kindOf, kindOf, sget_setName]
  split
  · next h => rw [Def.core_withName]
  · rfl

theorem memberIdxs_setName (s : Store) (j : Nat) (v : Option String) (i : Nat) :
    memberIdxs (sget (setName s j v) i) = memberIdxs (sget s i) := by
  rw [sget_setName]
  split
  · next h => rw [memberIdxs, memberIdxs, Def.core_withName]
  · rfl

theorem nameOf_setName (s : Store) (j : Nat) (v : Option String) (i : Nat) :
    nameOf (setName s j v) i =
      if j = i ∧ j < s.length then v else nameOf s i := by
  rw [nameOf, nameOf, sget_setName]
  split
  · next h => rw [Def.core_withName]
  · rfl

/-! The trace never reads names, so it is invariant under name writes. -/

theorem traceGo_setName (f : Nat) :
    ∀ (s : Store) (j : Nat) (v : Option String) (i : Nat) (pre : String),
      traceGo f (setName s j v) i pre = traceGo f s i pre := by
  induction f with
  | zero => intro s j v i pre; rfl
  | succ f ih =>
      intro s j v i pre
      have hq : (sget (setName s j v) i).core.qualified_name
          = (sget s i).core.qualified_name := qnOf_setName s j v i
      have hk : (sget (setName s j v) i).core.kind
          = (sget s i).core.kind := kindOf_setName s j v i
      have hm : memberIdxs (sget (setName s j v) i)
          = memberIdxs (sget s i) := memberIdxs_setName s j v i
      simp only [traceGo]
      rw [hq, hk, hm]
      split
      · congr 1
        congr 1
        exact List.map_congr_left (fun a _ => ih s j v a _)
      · rfl

theorem traceGo_applyWrites (w : List (Nat × String)) :
    ∀ (f : Nat) (s : Store) (i : Nat) (pre : String),
      traceGo f (applyWrites w s) i pre = traceGo f s i pre := by
  induction w with
  | nil => intro f s i pre; rfl
  | cons jv w ih =>
      intro f s i pre
      rw [applyWrites, List.foldl_cons, ← applyWrites, ih, traceGo_setName]

theorem applyWrites_append (w₁ w₂ : List (Nat × String)) (s : Store) :
    applyWrites (w₁ ++ w₂) s = applyWrites w₂ (applyWrites w₁ s) := by
  simp [applyWrites, List.foldl_append]

theorem unqGo_eq_applyWrites :
    ∀ (f : Nat) (s : Store) (i : Nat) (pre : String),
      unqGo f s i pre = applyWrites (traceGo f s i pre) s := by
  intro f
  induction f with
  | zero => intro s i pre; rfl
  | succ f ih =>
      have hfold : ∀ (pre : String) (js : List Nat) (s : Store)
          (w : List (Nat × String)),
          js.foldl (fun t j => unqGo f t j pre) (applyWrites w s)
            = applyWrites (w ++ (js.map (fun j => traceGo f s j pre)).flatten) s := by
        intro pre js
        induction js with
        | nil => intro s w; simp
        | cons j js ihjs =>
            intro s w
            rw [List.foldl_cons, ih (applyWrites w s) j pre,
              traceGo_applyWrites, ← applyWrites_append, ihjs,
              List.map_cons, List.flatten_cons]
            congr 1
            simp [List.append_assoc]
      intro s i pre
      simp only [unqGo, traceGo]
      by_cases hr : (pre = "" ∨ qnStarts (sget s i).core.qualified_name pre = true) ∧
          isCompound (sget s i).core.kind = true
      · rw [if_pos hr, if_pos hr]
        by_cases hw : pre ≠ "" ∧ qnStarts (sget s i).core.qualified_name pre = true
        · rw [if_pos hw, if_pos hw]
          have h1 : setName s i
              (some (pyDrop (qnStr (sget s i).core.qualified_name) (pyLen pre)))
              = applyWrites [(i, pyDrop (qnStr (sget s i).core.qualified_name)
                  (pyLen pre))] s := rfl
          rw [h1, hfold]
        · rw [if_neg hw, if_neg hw]
          have h := hfold (qnStr (sget s i).core.qualified_name ++ "::")
            (memberIdxs (sget s i)) s []
          rw [show applyWrites [] s = s from rfl, List.nil_append] at h
          exact h
      · rw [if_neg hr, if_neg hr]
        by_cases hw : pre ≠ "" ∧ qnStarts (sget s i).core.qualified_name pre = true
        · rw [if_pos hw, if_pos hw]
          rfl
        · rw [if_neg hw, if_neg hw]
          rfl

theorem unqualifyPass_eq_applyWrites (s : Store) :
    unqualifyPass s = applyWrites (passTrace s) s := by
  have hfold : ∀ (js : List Nat) (w : List (Nat × String)),
      js.foldl (fun t i => unqGo (s.length + 1) t i "") (applyWrites w s)
        = applyWrites
            (w ++ (js.map (fun i => traceGo (s.length + 1) s i "")).flatten) s := by
    intro js
    induction js with
    | nil => intro w; simp
    | cons j js ihjs =>
        intro w
        rw [List.foldl_cons, unqGo_eq_applyWrites, traceGo_applyWrites,
          ← applyWrites_append, ihjs, List.map_cons, List.flatten_cons]
        congr 1
        simp [List.append_assoc]
  have h := hfold (List.range s.length) []
  rw [show applyWrites [] s = s from rfl, List.nil_append] at h
  rw [unqualifyPass, passTrace]
  exact h

/-! The last write to an index in a trace. -/

def lastW : List (Nat × String) → Nat → Option String
  | [], _ => none
  | (j, v) :: w, i =>
      match lastW w i with
      | some u => some u
      | none => if j = i then some v else none

theorem nameOf_applyWrites (w : List (Nat × String)) :
    ∀ (s : Store) (i : Nat), i < s.length →
      nameOf (applyWrites w s) i =
        match lastW w i with
        | some v => some v
        | none => nameOf s i := by
  induction w with
  | nil => intro s i _; rfl
  | cons jv w ih =>
      intro s i hi
      obtain ⟨j, v⟩ := jv
      rw [applyWrites, List.foldl_cons, ← applyWrites]
      have hi' : i < (setName s j v).length := by
        rw [length_setName]; exact hi
      rw [ih (setName s j v) i hi', lastW]
      cases lastW w i with
      | some u => rfl
      | none =>
          simp only
          rw [nameOf_setName]
          by_cases hj : j = i
          · subst hj
            rw [if_pos ⟨rfl, hi⟩, if_pos rfl]
          · rw [if_neg (fun h => hj h.1), if_neg hj]

theorem sget_applyWrites (w : List (Nat × String)) :
    ∀ (s : Store) (i : Nat),
      sget (applyWrites w s) i = (sget s i).withName (nameOf (applyWrites w s) i) := by
  induction w with
  | nil =>
      intro s i
      exact (Def.withName_self (sget s i)).symm
  | cons jv w ih =>
      intro s i
      obtain ⟨j, v⟩ := jv
      rw [applyWrites, List.foldl_cons, ← applyWrites]
      rw [ih (setName s j v) i]
      rw [sget_setName]
      by_cases hj : j = i ∧ j < s.length
      · rw [if_pos hj, Def.withName_withName]
      · rw [if_neg hj]

theorem sget_eq_some (s : Store) (i : Nat) (h : i < s.length) :
    s[i]? = some (sget s i) := by
  simp [sget_eq_getElem?, List.getElem?_eq_getElem h]

theorem store_ext (s t : Store) (hlen : s.length = t.length)
    (h : ∀ i, i < s.length → sget s i = sget t i) : s = t := by
  apply List.ext_getElem?
  intro n
  by_cases hn : n < s.length
  · rw [sget_eq_some s n hn, sget_eq_some t n (hlen ▸ hn), h n hn]
  · rw [List.getElem?_eq_none (Nat.le_of_not_lt hn),
      List.getElem?_eq_none (hlen ▸ Nat.le_of_not_lt hn)]

theorem applyWrites_applyWrites (w : List (Nat × String)) (s : Store) :
    applyWrites w (applyWrites w s) = applyWrites w s := by
  apply store_ext
  · rw [length_applyWrites, length_applyWrites]
  · intro i hi
    have hi0 : i < s.length := by
      simpa [length_applyWrites] using hi
    have hi1 : i < (applyWrites w s).length := by
      simpa [length_applyWrites] using hi
    rw [sget_applyWrites w (applyWrites w s) i,
      nameOf_applyWrites w (applyWrites w s) i hi1,
      nameOf_applyWrites w s i hi0,
      sget_applyWrites w s i, nameOf_applyWrites w s i hi0]
    cases lastW w i with
    | some v => simp only [Def.withName_withName]
    | none => simp only [Def.withName_withName]

theorem length_unqualifyPass (s : Store) : (unqualifyPass s).length = s.length := by
  rw [unqualifyPass_eq_applyWrites, length_applyWrites]

theorem passTrace_applyWrites (w : List (Nat × String)) (s : Store) :
    passTrace (applyWrites w s) = passTrace s := by
  rw [passTrace, passTrace, length_applyWrites]
  congr 1
  exact List.map_congr_left (fun a _ => traceGo_applyWrites w _ s a "")

/-- C5: the unqualification pass is idempotent — running
`for d in defs: _unqualify_names(d)` twice yields the same store (hence the
same `name` on every definition) as running it once.  The pass reads only
`qualified_name`, member lists and definition kinds, and writes only `name`,
so a second run repeats exactly the same writes. -/
theorem C5_unqualify_idempotent (s : Store) :
    unqualifyPass (unqualifyPass s) = unqualifyPass s := by
  rw [unqualifyPass_eq_applyWrites (unqualifyPass s),
    unqualifyPass_eq_applyWrites s, passTrace_applyWrites,
    applyWrites_applyWrites]

/-! Which writes can occur: every write in a trace targets either the call's
root (when the prefix matches) or a resolved member of some compound whose
qualified name plus `"::"` the member's qualified name extends, with the
stripped remainder as value. -/

theorem traceGo_mem_shape (f : Nat) :
    ∀ (s : Store) (i : Nat) (pre : String) (jv : Nat × String),
      jv ∈ traceGo f s i pre →
      (jv.1 = i ∧ pre ≠ "" ∧ qnStarts (qnOf s i) pre = true ∧
        jv.2 = pyDrop (qnStr (qnOf s i)) (pyLen pre)) ∨
      (∃ q, isCompound (kindOf s q) = true ∧ jv.1 ∈ memberIdxs (sget s q) ∧
        qnStarts (qnOf s jv.1) (qnStr (qnOf s q) ++ "::") = true ∧
        jv.2 = pyDrop (qnStr (qnOf s jv.1)) (pyLen (qnStr (qnOf s q) ++ "::"))) := by
  induction f with
  | zero => intro s i pre jv h; simp [traceGo] at h
  | succ f ih =>
      intro s i pre jv h
      rw [traceGo] at h
      have hw1 : ∀ hjv : jv ∈ (if pre ≠ "" ∧ qnStarts (sget s i).core.qualified_name pre = true
          then [(i, pyDrop (qnStr (sget s i).core.qualified_name) (pyLen pre))]
          else []),
          (jv.1 = i ∧ pre ≠ "" ∧ qnStarts (qnOf s i) pre = true ∧
            jv.2 = pyDrop (qnStr (qnOf s i)) (pyLen pre)) := by
        intro hjv
        by_cases hcnd : pre ≠ "" ∧ qnStarts (sget s i).core.qualified_name pre = true
        · rw [if_pos hcnd, List.mem_singleton] at hjv
          subst hjv
          exact ⟨rfl, hcnd.1, hcnd.2, rfl⟩
        · rw [if_neg hcnd] at hjv
          exact absurd hjv (List.not_mem_nil jv)
      split at h
      · next hguard =>
          rcases List.mem_append.1 h with h1 | h2
          · exact Or.inl (hw1 h1)
          · rcases List.mem_flatten.1 h2 with ⟨l, hl, hjvl⟩
            rcases List.mem_map.1 hl with ⟨j, hjmem, rfl⟩
            rcases ih s j (qnStr (sget s i).core.qualified_name ++ "::") jv hjvl with
              hleft | hright
            · refine Or.inr ⟨i, hguard.2, ?_, ?_, ?_⟩
              · rw [hleft.1]; exact hjmem
              · rw [hleft.1]; exact hleft.2.2.1
              · rw [hleft.1]; exact hleft.2.2.2
            · exact Or.inr hright
      · exact Or.inl (hw1 h)

theorem append_colons_ne_empty (a : String) : a ++ "::" ≠ "" := by
  intro h
  have hd := congrArg String.data h
  rw [String.data_append] at hd
  simp at hd

theorem traceGo_mem_of_member (f : Nat) (s : Store) (q j : Nat)
    (hcomp : isCompound (kindOf s q) = true)
    (hj : j ∈ memberIdxs (sget s q))
    (hst : qnStarts (qnOf s j) (qnStr (qnOf s q) ++ "::") = true) :
    (j, pyDrop (qnStr (qnOf s j)) (pyLen (qnStr (qnOf s q) ++ "::")))
      ∈ traceGo (f + 2) s q "" := by
  rw [traceGo]
  rw [if_pos ⟨Or.inl rfl, hcomp⟩]
  rw [if_neg (fun hcnd => hcnd.1 rfl)]
  rw [List.nil_append]
  apply List.mem_flatten.2
  refine ⟨traceGo (f + 1) s j (qnStr (sget s q).core.qualified_name ++ "::"),
    List.mem_map.2 ⟨j, hj, rfl⟩, ?_⟩
  rw [traceGo]
  have hcnd : (qnStr (sget s q).core.qualified_name ++ "::") ≠ "" ∧
      qnStarts (sget s j).core.qualified_name
        (qnStr (sget s q).core.qualified_name ++ "::") = true :=
    ⟨append_colons_ne_empty _, hst⟩
  rw [if_pos hcnd]
  split
  · exact List.mem_append_left _ (List.mem_singleton.2 rfl)
  · exact List.mem_singleton.2 rfl

theorem kindOf_oob (s : Store) (q : Nat) (h : s.length ≤ q) :
    kindOf s q = .var := by
  rw [kindOf, sget_eq_getElem?, List.getElem?_eq_none h]
  rfl

theorem passTrace_mem_shape (s : Store) (jv : Nat × String)
    (h : jv ∈ passTrace s) :
    ∃ q, q < s.length ∧ isCompound (kindOf s q) = true ∧
      jv.1 ∈ memberIdxs (sget s q) ∧
      qnStarts (qnOf s jv.1) (qnStr (qnOf s q) ++ "::") = true ∧
      jv.2 = pyDrop (qnStr (qnOf s jv.1)) (pyLen (qnStr (qnOf s q) ++ "::")) := by
  rcases List.mem_flatten.1 h with ⟨l, hl, hjvl⟩
  rcases List.mem_map.1 hl with ⟨i, _, rfl⟩
  rcases traceGo_mem_shape (s.length + 1) s i "" jv hjvl with hleft | hright
  · exact absurd rfl hleft.2.1
  · rcases hright with ⟨q, hcomp, hmem, hst, hval⟩
    refine ⟨q, ?_, hcomp, hmem, hst, hval⟩
    by_contra hge
    rw [kindOf_oob s q (Nat.le_of_not_lt hge)] at hcomp
    exact absurd hcomp (by decide)

theorem passTrace_mem_of (s : Store) (q j : Nat) (hq : q < s.length)
    (hcomp : isCompound (kindOf s q) = true)
    (hj : j ∈ memberIdxs (sget s q))
    (hst : qnStarts (qnOf s j) (qnStr (qnOf s q) ++ "::") = true) :
    (j, pyDrop (qnStr (qnOf s j)) (pyLen (qnStr (qnOf s q) ++ "::")))
      ∈ passTrace s := by
  apply List.mem_flatten.2
  refine ⟨traceGo (s.length + 1) s q "", List.mem_map.2 ⟨q, List.mem_range.2 hq, rfl⟩, ?_⟩
  have hf : s.length + 1 = (s.length - 1) + 2 := by omega
  rw [hf]
  exact traceGo_mem_of_member (s.length - 1) s q j hcomp hj hst

/-! Last-write lemmas. -/

theorem lastW_mem (w : List (Nat × String)) (i : Nat) (x : String)
    (h : lastW w i = some x) : (i, x) ∈ w := by
  induction w with
  | nil => simp [lastW] at h
  | cons jv w ih =>
      obtain ⟨j, v⟩ := jv
      rw [lastW] at h
      cases hw : lastW w i with
      | some u =>
          rw [hw] at h
          cases h
          exact List.mem_cons_of_mem _ (ih hw)
      | none =>
          rw [hw] at h
          simp only at h
          by_cases hj : j = i
          · rw [if_pos hj] at h
            cases h
            subst hj
            exact List.mem_cons_self _ _
          · rw [if_neg hj] at h
            cases h

theorem lastW_eq_none (w : List (Nat × String)) (i : Nat)
    (h : ∀ v, (i, v) ∉ w) : lastW w i = none := by
  induction w with
  | nil => rfl
  | cons jv w ih =>
      obtain ⟨j, v⟩ := jv
      rw [lastW]
      have htail : lastW w i = none :=
        ih (fun u hu => h u (List.mem_cons_of_mem _ hu))
      rw [htail]
      simp only
      by_cases hj : j = i
      · subst hj
        exact absurd (List.mem_cons_self _ _) (h v)
      · rw [if_neg hj]

theorem lastW_eq_some (w : List (Nat × String)) (i : Nat) (v₀ : String)
    (hmem : (i, v₀) ∈ w) (huniq : ∀ v, (i, v) ∈ w → v = v₀) :
    lastW w i = some v₀ := by
  induction w with
  | nil => exact absurd hmem (List.not_mem_nil _)
  | cons jv w ih =>
      obtain ⟨j, v⟩ := jv
      rw [lastW]
      cases hw : lastW w i with
      | some u =>
          have : u = v₀ := huniq u (List.mem_cons_of_mem _ (lastW_mem w i u hw))
          rw [this]
      | none =>
          simp only
          rcases List.mem_cons.1 hmem with hhead | htail
          · have hj : j = i := congrArg Prod.fst hhead.symm
            have hv : v = v₀ := congrArg Prod.snd hhead.symm
            rw [if_pos hj, hv]
          · rw [ih htail (fun u hu => huniq u (List.mem_cons_of_mem _ hu))] at hw
            cases hw

theorem qnOf_applyWrites (w : List (Nat × String)) :
    ∀ (s : Store) (i : Nat), qnOf (applyWrites w s) i = qnOf s i := by
  induction w with
  | nil => intro s i; rfl
  | cons jv w ih =>
      intro s i
      rw [applyWrites, List.foldl_cons, ← applyWrites, ih, qnOf_setName]

theorem qnOf_unqualifyPass (s : Store) (i : Nat) :
    qnOf (unqualifyPass s) i = qnOf s i := by
  rw [unqualifyPass_eq_applyWrites, qnOf_applyWrites]

theorem nameOf_unqualifyPass (s : Store) (i : Nat) (h : i < s.length) :
    nameOf (unqualifyPass s) i =
      match lastW (passTrace s) i with
      | some v => some v
      | none => nameOf s i := by
  rw [unqualifyPass_eq_applyWrites, nameOf_applyWrites _ s i h]

theorem sget_map (f : Def → Def) (s : Store) (i : Nat) (h : i < s.length) :
    sget (s.map f) i = f (sget s i) := by
  rw [sget_eq_getElem?, List.getElem?_map, sget_eq_some s i h]
  rfl

theorem nameOf_nameFallback (s : Store) (i : Nat) (h : i < s.length) :
    nameOf (nameFallback s) i =
      match nameOf s i with
      | none => qnOf s i
      | some v => some v := by
  rw [nameOf, nameFallback, sget_map _ s i h]
  by_cases hn : (sget s i).core.name = none
  · rw [if_pos hn, Def.core_withName]
    rw [show nameOf s i = (sget s i).core.name from rfl, hn]
    rfl
  · rw [if_neg hn]
    rw [show nameOf s i = (sget s i).core.name from rfl]
    cases hv : (sget s i).core.name with
    | none => exact absurd hv hn
    | some v => rfl

theorem namingPipeline_nameOf (s : Store) (i : Nat) (h : i < s.length) :
    nameOf (namingPipeline s) i =
      match nameOf (unqualifyPass s) i with
      | none => qnOf s i
      | some v => some v := by
  have h' : i < (unqualifyPass s).length := by rwa [length_unqualifyPass]
  rw [namingPipeline, nameOf_nameFallback _ i h', qnOf_unqualifyPass]

/-- C4: during the unqualification pass (with the load's `name = None`
fallback), a compound child whose qualified name does not extend its parent's
qualified name plus `"::"` keeps its full qualified name as its name — no
write ever targets it, so the fallback applies — and recursion into that
child's own members still happens with the child's own qualified name plus
`"::"` as the prefix: a member of the mismatching child whose qualified name
extends that prefix receives the stripped remainder as its name.  (In the
code this recursion reaches the member through the pass's top-level call on
the child itself, which is in the definition list, rather than through the
parent's call, which stops at the mismatch.)  The side conditions say the
names are present, the affected definitions carry no name yet — true of
freshly parsed stores — and no other compound claims them with a matching
prefix. -/
theorem C4_mismatched_child_keeps_name_recursion_continues
    (s : Store) (p c : Nat) (P C : String)
    (hp : p < s.length) (hc : c < s.length)
    (hpcomp : isCompound (kindOf s p) = true)
    (hmem : c ∈ memberIdxs (sget s p))
    (hqp : qnOf s p = some P) (hqc : qnOf s c = some C)
    (hmis : pyStartsWith C (P ++ "::") = false) :
    ((nameOf s c = none) →
     (∀ q, q < s.length → isCompound (kindOf s q) = true →
        c ∈ memberIdxs (sget s q) →
        qnStarts (qnOf s c) (qnStr (qnOf s q) ++ "::") = false) →
     nameOf (namingPipeline s) c = some C) ∧
    (∀ g, g < s.length → isCompound (kindOf s c) = true →
      g ∈ memberIdxs (sget s c) →
      qnStarts (qnOf s g) (C ++ "::") = true →
      (∀ q, q < s.length → isCompound (kindOf s q) = true →
        g ∈ memberIdxs (sget s q) →
        qnStarts (qnOf s g) (qnStr (qnOf s q) ++ "::") = true →
        qnStr (qnOf s q) = C) →
      nameOf (namingPipeline s) g
        = some (pyDrop (qnStr (qnOf s g)) (pyLen (C ++ "::")))) := by
  constructor
  · intro hname hno
    have hnone : lastW (passTrace s) c = none := by
      apply lastW_eq_none
      intro v hv
      rcases passTrace_mem_shape s (c, v) hv with ⟨q, hqlen, hqcomp, hqmem, hqst, _⟩
      rw [hno q hqlen hqcomp hqmem] at hqst
      cases hqst
    rw [namingPipeline_nameOf s c hc, nameOf_unqualifyPass s c hc, hnone, hname]
    rw [hqc]
  · intro g hg hccomp hgmem hgst huniq
    have hstc : qnStarts (qnOf s g) (qnStr (qnOf s c) ++ "::") = true := by
      rw [hqc]; exact hgst
    have hwmem := passTrace_mem_of s c g hc hccomp hgmem hstc
    have hval : pyDrop (qnStr (qnOf s g)) (pyLen (qnStr (qnOf s c) ++ "::"))
        = pyDrop (qnStr (qnOf s g)) (pyLen (C ++ "::")) := by
      rw [hqc]; rfl
    have hsome : lastW (passTrace s) g
        = some (pyDrop (qnStr (qnOf s g)) (pyLen (C ++ "::"))) := by
      apply lastW_eq_some
      · rw [← hval]; exact hwmem
      · intro v hv
        rcases passTrace_mem_shape s (g, v) hv with ⟨q, hqlen, hqcomp, hqmem, hqst, hqval⟩
        have hqn : qnStr (qnOf s q) = C := huniq q hqlen hqcomp hqmem hqst
        simp only at hqval
        rw [hqval, hqn]
    rw [namingPipeline_nameOf s g hg, nameOf_unqualifyPass s g hg, hsome]

/-- The store for the C4 witness: namespace `ns` whose member `other::x` does
not extend `ns::`; `other::x` itself is a namespace with a member
`other::x::f`. -/
def c4Store : Store :=
  [.mk { kind := .nsp, id := some "n0", qualified_name := some "ns",
         members := [.resolved 1] } [],
   .mk { kind := .nsp, id := some "n1", qualified_name := some "other::x",
         members := [.resolved 2] } [],
   .mk { kind := .func, id := some "f2", qualified_name := some "other::x::f" } []]

/-- Witness for C4: on `c4Store` the mismatching child ends with its full
qualified name `other::x` as name, and its member is still unqualified to
`f` against the child's own prefix. -/
theorem C4_mismatched_child_witness :
    nameOf (namingPipeline c4Store) 1 = some "other::x" ∧
    nameOf (namingPipeline c4Store) 2 = some "f" :=
  ⟨(C4_mismatched_child_keeps_name_recursion_continues c4Store 0 1 "ns" "other::x"
      (by decide) (by decide) (by decide) (by decide) (by decide) (by decide)
      (by decide)).1 (by decide) (by decide),
   by
    have h := (C4_mismatched_child_keeps_name_recursion_continues c4Store 0 1
      "ns" "other::x" (by decide) (by decide) (by decide) (by decide)
      (by decide) (by decide) (by decide)).2 2 (by decide) (by decide)
      (by decide) (by decide) (by decide)
    rwa [show pyDrop (qnStr (qnOf c4Store 2)) (pyLen ("other::x" ++ "::")) = "f"
      from rfl] at h⟩

/-! ### C6: `name` after load completion

The claim says `name` is neither `None` nor empty after a completed load.
Two degenerate inputs defeat it: a member whose qualified name equals the
parent's prefix exactly is stripped to the empty string (which the fallback,
testing `is None`, does not replace), and a definition with no
`qualified_name` at all keeps `name = None` because the fallback copies the
`None` qualified name. -/

def c6Store : Store :=
  [.mk { kind := .nsp, id := some "n0", qualified_name := some "ns",
         members := [.resolved 1] } [],
   .mk { kind := .func, id := some "f1", qualified_name := some "ns::" } [],
   .mk { kind := .var, id := some "v2", qualified_name := none } []]

/-- C6, counterexample: on `c6Store` — a namespace `ns` with a member whose
qualified name is exactly `"ns::"`, plus a variable without a qualified
name — the completed naming stage leaves the member's name empty and the
variable's name `None`, contradicting the claim that `name` is neither
`None` nor empty after load. -/
theorem C6_counterexample :
    nameOf (namingPipeline c6Store) 1 = some "" ∧
    nameOf (namingPipeline c6Store) 2 = none := by
  constructor <;> rfl

/-- C6 as amended: for every definition with a non-null `qualified_name`,
`name` is non-null after the naming stage — if unqualification wrote nothing,
the fallback copies the qualified name; the name may however be the empty
string when the qualified name exactly equals a parent's prefix. -/
theorem C6_name_not_none (s : Store) (i : Nat)
    (h : i < s.length) (hq : qnOf s i ≠ none) :
    nameOf (namingPipeline s) i ≠ none := by
  rw [namingPipeline_nameOf s i h]
  cases hn : nameOf (unqualifyPass s) i with
  | none => exact hq
  | some v => simp

/-- Witness for the amended C6 on `c6Store`: the namespace itself (which has a
qualified name) ends with a non-null name. -/
theorem C6_name_not_none_witness :
    nameOf (namingPipeline c6Store) 0 ≠ none :=
  C6_name_not_none c6Store 0 (by decide) (by decide)

/-! ### `_derive_brief_description` (source.py) -/

/-- The `children` attribute of a fragment (a `TextFragment` never acquires
children during deserialization). -/
def fragChildren : Frag → List Frag
  | .text _ => []
  | .node cs => cs
  | .format _ cs => cs
  | .xref _ cs => cs
  | .link _ cs => cs
  | .sect _ cs => cs

/-- `isinstance(f, FormatFragment) and f.variant == Variant.PARAGRAPH`. -/
def isParaFrag : Frag → Bool
  | .format .paragraph _ => true
  | _ => false

/-- `_derive_brief_description`: when there is no brief description but the
detailed description's first child fragment is a paragraph, the brief
description becomes a fresh `Markup` whose root's only child is that very
fragment; the detailed description is left as it is. -/
def derive_brief_description (d : Def) : Def :=
  match d.core.brief_description, d.core.detailed_description with
  | none, some det =>
      match fragChildren det with
      | f0 :: _ =>
          if isParaFrag f0 then
            .mk { d.core with brief_description := some (.node [f0]) } d.values
          else d
      | [] => d
  | _, _ => d

/-- C7: for a definition with no brief description whose detailed
description's first child fragment is a paragraph format fragment,
brief-description derivation sets the brief description to a markup whose
sole child is that very fragment (the same fragment value, shared, not a
copy), while the detailed description stays unchanged; a definition not
meeting the precondition is returned entirely unchanged. -/
theorem C7_brief_derivation (d : Def) (det f0 : Frag) :
    (d.core.brief_description = none →
     d.core.detailed_description = some det →
     (fragChildren det).head? = some f0 →
     isParaFrag f0 = true →
     (derive_brief_description d).core.brief_description = some (.node [f0]) ∧
     (derive_brief_description d).core.detailed_description = some det) ∧
    ((d.core.brief_description = none →
      ∀ dt, d.core.detailed_description = some dt →
      ∀ g, (fragChildren dt).head? = some g → isParaFrag g = false) →
     derive_brief_description d = d) := by
  constructor
  · intro hb hd hh hp
    cases hcs : fragChildren det with
    | nil => rw [hcs] at hh; cases hh
    | cons g rest =>
        rw [hcs] at hh
        have hg : g = f0 := by
          simpa using hh
        subst hg
        simp only [derive_brief_description, hb, hd, hcs]
        rw [if_pos hp]
        exact ⟨rfl, rfl⟩
  · intro hmiss
    cases hb : d.core.brief_description with
    | some b => simp only [derive_brief_description, hb]
    | none =>
        cases hd : d.core.detailed_description with
        | none => simp only [derive_brief_description, hb, hd]
        | some dt =>
            cases hcs : fragChildren dt with
            | nil => simp only [derive_brief_description, hb, hd, hcs]
            | cons g rest =>
                have hgp : isParaFrag g = false := by
                  apply hmiss hb dt hd
                  rw [hcs]
                  rfl
                simp only [derive_brief_description, hb, hd, hcs]
                rw [if_neg (by simp [hgp])]

def c7Def : Def :=
  .mk { kind := .func, id := some "f",
        detailed_description := some (.node
          [.format .paragraph [.text (some "hi")], .text (some "more")]) } []

/-- Witness for C7 on a concrete definition: the first paragraph of the
detailed description becomes the sole child of the derived brief description,
and the detailed description keeps both children. -/
theorem C7_brief_derivation_witness :
    (derive_brief_description c7Def).core.brief_description
      = some (.node [.format .paragraph [.text (some "hi")]]) ∧
    (derive_brief_description c7Def).core.detailed_description
      = some (.node [.format .paragraph [.text (some "hi")], .text (some "more")]) :=
  (C7_brief_derivation c7Def
    (.node [.format .paragraph [.text (some "hi")], .text (some "more")])
    (.format .paragraph [.text (some "hi")])).1 rfl rfl rfl rfl

/-! ### Locator assignment

`source.py`'s `_generate_href` (run by `load`) sets `href = d.id + '.html'`;
a `None` id raises `TypeError` there.  `doctree.py`'s `_generate_href` then
overwrites it: a variable, function or typedef owned by a Class, and every
enum variant, gets `page = None` and an anchor href into the owner's page;
everything else gets its own page.  Python's `str.format` renders a `None`
id as the string `"None"`. -/

def generate_href_load (d : Def) : Option Def :=
  match d.core.id with
  | none => none
  | some i => some (.mk { d.core with href := some (i ++ ".html") } d.values)

def pyFormatOpt (o : Option String) : String :=
  match o with
  | some s => s
  | none => "None"

def anchorCond (s : Store) (d : Def) : Bool :=
  ((decide (d.core.kind = .var) || decide (d.core.kind = .func) ||
    decide (d.core.kind = .typedef)) &&
   (match d.core.scope_parent with
    | some p => decide (kindOf s p = .cls)
    | none => false)) || decide (d.core.kind = .enumVal)

/-- `doctree._generate_href`; returns `none` where Python raises
(`d.scope_parent.id` on a `None` scope parent, possible for an enum variant). -/
def generate_href_doctree (s : Store) (d : Def) : Option Def :=
  if anchorCond s d then
    match d.core.scope_parent with
    | none => none
    | some p =>
        some (.mk
          { d.core with
              page := none,
              href := some (pyFormatOpt (sget s p).core.id ++ ".html#" ++
                pyFormatOpt d.core.id) }
          d.values)
  else
    some (.mk
      { d.core with
          page := some (pyFormatOpt d.core.id ++ ".html"),
          href := some (pyFormatOpt d.core.id ++ ".html") }
      d.values)

def c8FuncDef : Def := .mk { kind := .func, id := some "f" } []

/-- C8, counterexample: the claim says a top-level function gets
`page == href ==` its own id, but `doctree._generate_href` appends `".html"`:
on a function with id `"f"` the assigned page is `"f.html"`, not `"f"` (and
the anchor branch likewise uses `"<owner id>.html#<own id>"`). -/
theorem C8_counterexample :
    (generate_href_doctree [c8FuncDef] c8FuncDef).map (fun d => d.core.page)
      = some (some "f.html") ∧ "f.html" ≠ "f" := by
  constructor
  · rfl
  · decide

/-- C8 as amended: locator assignment gives every definition
`page = id + ".html"` and `href = page`, except that a variable, function or
typedef whose scope parent is a Class, and every enum variant (with a scope
parent), gets `page = None` and `href = "<owner id>.html#<own id>"`. -/
theorem C8_locator_assignment (s : Store) (d : Def) (own : String)
    (hid : d.core.id = some own) :
    (∀ p oid, d.core.scope_parent = some p → (sget s p).core.id = some oid →
      ((d.core.kind = .var ∨ d.core.kind = .func ∨ d.core.kind = .typedef) ∧
         kindOf s p = .cls) ∨ d.core.kind = .enumVal →
      ∃ d', generate_href_doctree s d = some d' ∧ d'.core.page = none ∧
        d'.core.href = some (oid ++ ".html#" ++ own)) ∧
    (d.core.kind ≠ .enumVal →
     (¬ (d.core.kind = .var ∨ d.core.kind = .func ∨ d.core.kind = .typedef) ∨
       d.core.scope_parent = none ∨
       (∀ p, d.core.scope_parent = some p → kindOf s p ≠ .cls)) →
      ∃ d', generate_href_doctree s d = some d' ∧
        d'.core.page = some (own ++ ".html") ∧ d'.core.href = d'.core.page) := by
  constructor
  · intro p oid hsp hoid hcase
    have hcond : anchorCond s d = true := by
      rcases hcase with ⟨hk, hcls⟩ | hev
      · rw [anchorCond, hsp]
        rcases hk with h | h | h <;> simp [h, hcls]
      · simp [anchorCond, hev]
    rw [generate_href_doctree, if_pos hcond, hsp]
    refine ⟨_, rfl, rfl, ?_⟩
    show some (pyFormatOpt (sget s p).core.id ++ ".html#" ++ pyFormatOpt d.core.id)
      = some (oid ++ ".html#" ++ own)
    rw [hoid, hid]
    rfl
  · intro hne hmiss
    have hcond : anchorCond s d = false := by
      rw [anchorCond]
      have he : decide (d.core.kind = .enumVal) = false := by
        simpa using hne
      rcases hmiss with h3 | hsp | hcls
      · have h1 : d.core.kind ≠ .var := fun h => h3 (Or.inl h)
        have h2 : d.core.kind ≠ .func := fun h => h3 (Or.inr (Or.inl h))
        have h4 : d.core.kind ≠ .typedef := fun h => h3 (Or.inr (Or.inr h))
        simp [h1, h2, h4, hne]
      · rw [hsp]
        simp [hne]
      · cases hp : d.core.scope_parent with
        | none => simp [hne]
        | some p =>
            have hk : kindOf s p ≠ .cls := hcls p hp
            simp [hk, hne]
    rw [generate_href_doctree, if_neg (by simp [hcond])]
    refine ⟨_, rfl, ?_, rfl⟩
    show some (pyFormatOpt d.core.id ++ ".html") = some (own ++ ".html")
    rw [hid]
    rfl

def c8Store : Store :=
  [.mk { kind := .cls, id := some "K", qualified_name := some "K",
         members := [.resolved 1] } [],
   .mk { kind := .var, id := some "v", qualified_name := some "K::v",
         scope_parent := some 0 } [],
   c8FuncDef]

/-- Witness for the amended C8 on a concrete store: the class-owned variable
gets no page and the anchor href `"K.html#v"`; the top-level function gets
page and href `"f.html"`. -/
theorem C8_locator_assignment_witness :
    (∃ d', generate_href_doctree c8Store (sget c8Store 1) = some d' ∧
      d'.core.page = none ∧ d'.core.href = some ("K" ++ ".html#" ++ "v")) ∧
    (∃ d', generate_href_doctree c8Store (sget c8Store 2) = some d' ∧
      d'.core.page = some ("f" ++ ".html") ∧ d'.core.href = d'.core.page) :=
  ⟨(C8_locator_assignment c8Store (sget c8Store 1) "v" (by decide)).1
      0 "K" (by decide) (by decide) (Or.inl ⟨Or.inl (by decide), by decide⟩),
   (C8_locator_assignment c8Store (sget c8Store 2) "f" (by decide)).2
      (by decide) (Or.inr (Or.inl (by decide)))⟩

/-! ### `Location.maybe_lineno` (source.py)

```
try:
    string = attrs[key]
    line = int(string)
    return line if line > 0 else None
except KeyError or ValueError:
    return None
```

Python evaluates the clause expression `KeyError or ValueError` to `KeyError`
(a class is truthy), so only `KeyError` is caught; `int` raising `ValueError`
on a non-integer string escapes the function and aborts the whole load (the
call chain `Location.deserialize` → `Def.deserialize` → `_parse` → `load` has
no other handler). -/

inductive PyExc where
  | valueError
deriving DecidableEq, Repr

/-- Digits-to-value helper for the model of Python `int(str)`. -/
def digitsVal (cs : List Char) (acc : Nat) : Option Nat :=
  match cs with
  | [] => some acc
  | c :: rest =>
      if c.isDigit then digitsVal rest (acc * 10 + (c.toNat - 48)) else none

/-- Python `int(s)` for a string: optional sign followed by one or more
digits, else `ValueError` (modelled as `none`). -/
def pyInt? (s : String) : Option Int :=
  match s.data with
  | [] => none
  | '-' :: c :: rest =>
      if c.isDigit then (digitsVal (c :: rest) 0).map (fun n => -(n : Int))
      else none
  | '+' :: c :: rest =>
      if c.isDigit then (digitsVal (c :: rest) 0).map (fun n => (n : Int))
      else none
  | c :: rest =>
      if c.isDigit then (digitsVal (c :: rest) 0).map (fun n => (n : Int))
      else none

/-- `Location.maybe_lineno` with the `except KeyError or ValueError` slip:
a missing key is caught and degrades to `None`; a non-integer value raises an
uncaught `ValueError`. -/
def maybe_lineno (attrs : List (String × String)) (key : String) :
    Except PyExc (Option Int) :=
  match attrs.find? (fun p => decide (p.1 = key)) with
  | none => .ok none
  | some p =>
      match pyInt? p.2 with
      | none => .error .valueError
      | some n => .ok (if n > 0 then some n else none)

/-- C9: the claim states the load pipeline never raises on malformed input,
listing non-integer line numbers among the degraded cases.  Evaluating
`Location.maybe_lineno` on a location attribute `line="abc"` shows the
uncaught `ValueError`: the clause `except KeyError or ValueError` catches
only `KeyError` (the expression evaluates to `KeyError`), so the missing-key
case degrades to `None` but the non-integer case aborts the load.  The claim
fails on the code. -/
theorem C9_nonint_lineno_raises :
    maybe_lineno [("file", "a.h"), ("line", "abc")] "line" = .error .valueError ∧
    maybe_lineno [("file", "a.h")] "line" = .ok none ∧
    maybe_lineno [("file", "a.h"), ("line", "12")] "line" = .ok (some 12) := by
  refine ⟨rfl, rfl, ?_⟩
  rfl

/-! ### `deserialize_ref` (source.py) -/

/-- `_maybe_text(node)`: `None` for missing or falsy (empty) text. -/
def maybe_text (t : Option String) : Option String :=
  match t with
  | some s => if s = "" then none else some s
  | none => none

/-- `deserialize_ref`: no `refid` and no text yields `None`; no `refid` but
text yields an `UnresolvedRef(name)` directly; a `refid` yields a
`SymbolicRef(refid, name)`. -/
def deserialize_ref (refid : Option String) (txt : Option String) : Option Ref :=
  match refid with
  | none =>
      match maybe_text txt with
      | none => none
      | some n => some (.unresolved (some n))
  | some id => some (.symbolic (some id) (maybe_text txt))

/-- C10: a reference imported with a display name but no id attribute is
constructed directly as an `UnresolvedRef`, and resolution is the identity on
it for every lookup map — `Ref.resolve` returns `self` for anything that is
not a `SymbolicRef`, so name-only references are never matched to a
definition by name. -/
theorem C10_name_only_ref_resolves_to_itself (nm : String) (hnm : nm ≠ "")
    (m : RefMap) :
    deserialize_ref none (some nm) = some (.unresolved (some nm)) ∧
    Ref.resolve m (.unresolved (some nm)) = .unresolved (some nm) := by
  constructor
  · simp [deserialize_ref, maybe_text, hnm]
  · rfl

/-- Witness for C10 with the name `"A"` and a lookup map that even contains
the key `"A"`: the unresolved reference is untouched. -/
theorem C10_name_only_ref_witness :
    deserialize_ref none (some "A") = some (.unresolved (some "A")) ∧
    Ref.resolve [(some "A", 0)] (.unresolved (some "A"))
      = .unresolved (some "A") :=
  C10_name_only_ref_resolves_to_itself "A" (by decide) [(some "A", 0)]

/-! ### Decimal suffixes for identity finalization

The spec's `slug-N` suffixes use the decimal representation of `N`; it is
modelled with an executable printer whose injectivity is proved through the
evaluation round trip. -/

def decDigitsF : Nat → Nat → List Nat
  | 0, _ => []
  | f + 1, n => if n = 0 then [] else n % 10 :: decDigitsF f (n / 10)

def decDigits (n : Nat) : List Nat := decDigitsF n n

def digitChar : Nat → Char
  | 0 => '0' | 1 => '1' | 2 => '2' | 3 => '3' | 4 => '4'
  | 5 => '5' | 6 => '6' | 7 => '7' | 8 => '8' | 9 => '9'
  | _ => '*'

def decStr (n : Nat) : String := ⟨(decDigits n).reverse.map digitChar⟩

def decVal : List Nat → Nat
  | [] => 0
  | d :: ds => d + 10 * decVal ds

theorem decVal_decDigitsF : ∀ (f n : Nat), n ≤ f → decVal (decDigitsF f n) = n := by
  intro f
  induction f with
  | zero => intro n h; interval_cases n; rfl
  | succ f ih =>
      intro n h
      rw [decDigitsF]
      by_cases hn : n = 0
      · rw [if_pos hn, hn]; rfl
      · rw [if_neg hn, decVal]
        have hdiv : n / 10 ≤ f := by
          have : n / 10 < n := Nat.div_lt_self (Nat.pos_of_ne_zero hn) (by omega)
          omega
        rw [ih (n / 10) hdiv]
        omega

theorem decDigits_injective : Function.Injective decDigits := by
  intro a b h
  have ha : decVal (decDigits a) = a := by
    rw [decDigits]; exact decVal_decDigitsF a a (Nat.le_refl a)
  have hb : decVal (decDigits b) = b := by
    rw [decDigits]; exact decVal_decDigitsF b b (Nat.le_refl b)
  rw [← ha, ← hb, h]

theorem decDigitsF_lt_ten : ∀ (f n : Nat), ∀ d ∈ decDigitsF f n, d < 10 := by
  intro f
  induction f with
  | zero => intro n d h; simp [decDigitsF] at h
  | succ f ih =>
      intro n d h
      rw [decDigitsF] at h
      by_cases hn : n = 0
      · rw [if_pos hn] at h; simp at h
      · rw [if_neg hn] at h
        rcases List.mem_cons.1 h with h1 | h2
        · subst h1; exact Nat.mod_lt n (by omega)
        · exact ih (n / 10) d h2

theorem digitChar_inj_lt (a b : Nat) (ha : a < 10) (hb : b < 10)
    (h : digitChar a = digitChar b) : a = b := by
  interval_cases a <;> interval_cases b <;> revert h <;> decide

theorem map_digitChar_inj : ∀ (l₁ l₂ : List Nat),
    (∀ d ∈ l₁, d < 10) → (∀ d ∈ l₂, d < 10) →
    l₁.map digitChar = l₂.map digitChar → l₁ = l₂ := by
  intro l₁
  induction l₁ with
  | nil =>
      intro l₂ _ _ h
      cases l₂ with
      | nil => rfl
      | cons b bs => simp at h
  | cons a as ih =>
      intro l₂ h1 h2 h
      cases l₂ with
      | nil => simp at h
      | cons b bs =>
          simp only [List.map_cons, List.cons.injEq] at h
          have hab : a = b :=
            digitChar_inj_lt a b (h1 a (List.mem_cons_self _ _))
              (h2 b (List.mem_cons_self _ _)) h.1
          rw [hab, ih bs (fun d hd => h1 d (List.mem_cons_of_mem _ hd))
            (fun d hd => h2 d (List.mem_cons_of_mem _ hd)) h.2]

theorem decStr_injective : Function.Injective decStr := by
  intro a b h
  have hdata : ((decDigits a).reverse.map digitChar)
      = ((decDigits b).reverse.map digitChar) := congrArg String.data h
  have hrev : (decDigits a).reverse = (decDigits b).reverse :=
    map_digitChar_inj _ _
      (fun d hd => decDigitsF_lt_ten a a d (List.mem_reverse.1 hd))
      (fun d hd => decDigitsF_lt_ten b b d (List.mem_reverse.1 hd)) hdata
  exact decDigits_injective (List.reverse_injective hrev)

/-! ### Fresh-id search

Modelled from the spec: identity finalization assigns `slug`, or `slug-N`
for the smallest integer `N ≥ 1` whose candidate is not yet used; the loop
that performs this has no counterpart under src/ (the `slug` methods of
`model.py` are never called), so the uniquification is modelled from the
spec's words on top of the faithfully embedded `slug` computation. -/

def candidate (slug : String) (n : Nat) : String :=
  slug ++ "-" ++ decStr n

theorem candidate_injective (slug : String) :
    Function.Injective (candidate slug) := by
  intro a b h
  have hdata := congrArg String.data h
  rw [candidate, candidate, String.data_append, String.data_append] at hdata
  exact decStr_injective (String.ext (List.append_cancel_left hdata))

def freshSearch (slug : String) (used : List String) : Nat → Nat → String
  | 0, _ => slug
  | f + 1, n =>
      if candidate slug n ∈ used then freshSearch slug used f (n + 1)
      else candidate slug n

def firstFresh (slug : String) (used : List String) : String :=
  if slug ∈ used then freshSearch slug used (used.length + 1) 1 else slug

theorem freshSearch_fresh (slug : String) (used : List String) :
    ∀ (f n₀ : Nat), (∃ k, k < f ∧ candidate slug (n₀ + k) ∉ used) →
      freshSearch slug used f n₀ ∉ used := by
  intro f
  induction f with
  | zero => intro n₀ h; rcases h with ⟨k, hk, _⟩; omega
  | succ f ih =>
      intro n₀ h
      rw [freshSearch]
      by_cases hc : candidate slug n₀ ∈ used
      · rw [if_pos hc]
        rcases h with ⟨k, hk, hfree⟩
        apply ih
        refine ⟨k - 1, ?_, ?_⟩
        · have hk0 : k ≠ 0 := by
            intro h0
            rw [h0, Nat.add_zero] at hfree
            exact hfree hc
          omega
        · have hk0 : k ≠ 0 := by
            intro h0
            rw [h0, Nat.add_zero] at hfree
            exact hfree hc
          have : n₀ + 1 + (k - 1) = n₀ + k := by omega
          rwa [this]
      · rw [if_neg hc]
        exact hc

theorem exists_fresh (slug : String) (used : List String) :
    ∃ k, k < used.length + 1 ∧ candidate slug (1 + k) ∉ used := by
  by_contra hall
  push_neg at hall
  have hsub : ((List.range (used.length + 1)).map
      (fun k => candidate slug (1 + k))).toFinset ⊆ used.toFinset := by
    intro a ha
    rcases List.mem_map.1 (List.mem_toFinset.1 ha) with ⟨k, hk, rfl⟩
    exact List.mem_toFinset.2 (hall k (List.mem_range.1 hk))
  have hnd : ((List.range (used.length + 1)).map
      (fun k => candidate slug (1 + k))).Nodup := by
    apply List.Nodup.map
    · intro a b hab
      have := candidate_injective slug hab
      omega
    · exact List.nodup_range _
  have hcard1 : ((List.range (used.length + 1)).map
      (fun k => candidate slug (1 + k))).toFinset.card = used.length + 1 := by
    rw [List.toFinset_card_of_nodup hnd, List.length_map, List.length_range]
  have hcard2 := Finset.card_le_card hsub
  rw [hcard1] at hcard2
  have := List.toFinset_card_le used
  omega

theorem firstFresh_not_mem (slug : String) (used : List String) :
    firstFresh slug used ∉ used := by
  rw [firstFresh]
  by_cases h : slug ∈ used
  · rw [if_pos h]
    exact freshSearch_fresh slug used (used.length + 1) 1 (exists_fresh slug used)
  · rw [if_neg h]
    exact h

theorem freshSearch_shape (slug : String) (used : List String) :
    ∀ (f n₀ : Nat), freshSearch slug used f n₀ = slug ∨
      ∃ n, n₀ ≤ n ∧ freshSearch slug used f n₀ = candidate slug n := by
  intro f
  induction f with
  | zero => intro n₀; exact Or.inl rfl
  | succ f ih =>
      intro n₀
      rw [freshSearch]
      by_cases hc : candidate slug n₀ ∈ used
      · rw [if_pos hc]
        rcases ih (n₀ + 1) with h | ⟨n, hn, hval⟩
        · exact Or.inl h
        · exact Or.inr ⟨n, by omega, hval⟩
      · rw [if_neg hc]
        exact Or.inr ⟨n₀, Nat.le_refl _, rfl⟩

theorem firstFresh_shape (slug : String) (used : List String) :
    firstFresh slug used = slug ∨
      ∃ n, 1 ≤ n ∧ firstFresh slug used = candidate slug n := by
  rw [firstFresh]
  by_cases h : slug ∈ used
  · rw [if_pos h]
    exact freshSearch_shape slug used (used.length + 1) 1
  · rw [if_neg h]
    exact Or.inl rfl

/-! ### The `slug` computation (model.py)

`SymbolDef.slug` lower-cases the name, prepends the lower-cased names of
successive non-root scope ancestors joined with `-`, and strips every
character outside `[a-z-]`; each class prepends its kind tag.  `PathDef.slug`
walks `file_parent` but — as written — formats `self.file_parent.name` (the
first parent) at every step of the walk; this is embedded as-is.
`GroupDef`/`PageDef` use the bare name, and `IndexDef.slug` is its id.  A
`None` name would raise in Python; it is modelled as `""`. -/

def slugStrip (s : String) : String :=
  ⟨s.data.filter (fun c => decide (c = '-') || (decide ('a' ≤ c) && decide (c ≤ 'z')))⟩

def defNameLower (d : Def) : String :=
  pyLower (d.core.name.getD "")

def scopeChainSlug : Nat → Store → Option Nat → String → String
  | 0, _, _, acc => acc
  | fuel + 1, s, par, acc =>
      match par with
      | none => acc
      | some p =>
          if (sget s p).core.kind = .index then acc
          else scopeChainSlug fuel s (sget s p).core.scope_parent
            (defNameLower (sget s p) ++ "-" ++ acc)

def pathChainSlug : Nat → Store → Option Nat → String → String → String
  | 0, _, _, _, acc => acc
  | fuel + 1, s, par, firstName, acc =>
      match par with
      | none => acc
      | some p =>
          if (sget s p).core.kind = .index then acc
          else pathChainSlug fuel s (sget s p).core.file_parent firstName
            (firstName ++ "-" ++ acc)

def symbolSlug (s : Store) (d : Def) : String :=
  slugStrip (scopeChainSlug (s.length + 1) s d.core.scope_parent (defNameLower d))

def pathSlug (s : Store) (d : Def) : String :=
  slugStrip (pathChainSlug (s.length + 1) s d.core.file_parent
    (match d.core.file_parent with
     | some p0 => defNameLower (sget s p0)
     | none => "")
    (defNameLower d))

def slugOf (s : Store) (d : Def) : String :=
  match d.core.kind with
  | .mac => "m-" ++ symbolSlug s d
  | .typedef => "t-" ++ symbolSlug s d
  | .func => "fn-" ++ symbolSlug s d
  | .var => "v-" ++ symbolSlug s d
  | .prop => "p-" ++ symbolSlug s d
  | .friendK => "fr-" ++ symbolSlug s d
  | .enumVal => "ev-" ++ symbolSlug s d
  | .enumK => "e-" ++ symbolSlug s d
  | .nsp => "ns-" ++ symbolSlug s d
  | .cls => "c-" ++ symbolSlug s d
  | .dir => "dir-" ++ pathSlug s d
  | .file => "file-" ++ pathSlug s d
  | .grp => "g-" ++ slugStrip (defNameLower d)
  | .pageK => "page-" ++ slugStrip (defNameLower d)
  | .index => d.core.id.getD ""

/-! ### Identity finalization

Modelled from the spec: definitions are visited sorted by their
pre-finalization id and each is assigned its slug, or `slug-N` for the
smallest `N ≥ 1` whose candidate is not yet used; the assigned value becomes
the definition's id.  No code under src/ performs this pass (nothing calls
the `slug` methods), so the visiting loop follows the spec's words; the slug
itself is the faithful embedding above.  Slug inputs (names, kinds, parent
indices) are never written by the pass, so slugs are computed against the
input store. -/

def Def.withIdOf (d : Def) (v : Option String) : Def :=
  .mk { d.core with id := v } d.values

def idKey (s : Store) (i : Nat) : String :=
  pyFormatOpt (sget s i).core.id

def visitOrder (s : Store) : List Nat :=
  (List.range s.length).mergeSort (fun i j => decide (idKey s i ≤ idKey s j))

def finalizeStep (s : Store) (acc : Store × List String) (i : Nat) :
    Store × List String :=
  let fresh := firstFresh (slugOf s (sget s i)) acc.2
  (acc.1.set i ((sget acc.1 i).withIdOf (some fresh)), fresh :: acc.2)

def finalizeIds (s : Store) : Store :=
  ((visitOrder s).foldl (finalizeStep s) (s, [])).1

theorem Def.core_withIdOf (d : Def) (v : Option String) :
    (d.withIdOf v).core = { d.core with id := v } := by
  obtain ⟨c, vs⟩ := d
  rfl

/-- The id at `i` after finalization: assigned and fresh for processed
indices, untouched otherwise. -/
def idShape (s st : Store) (i : Nat) : Prop :=
  (sget st i).core.id = some (slugOf s (sget s i)) ∨
    ∃ n, 1 ≤ n ∧ (sget st i).core.id = some (candidate (slugOf s (sget s i)) n)

theorem finalize_fold_inv (s : Store) :
    ∀ (l : List Nat) (st : Store) (used : List String) (P : List Nat),
      (∀ x ∈ l, x ∉ P) → l.Nodup → (∀ x ∈ l, x < s.length) →
      st.length = s.length →
      (∀ i ∈ P, ∃ v, (sget st i).core.id = some v ∧ v ∈ used) →
      (∀ i j, i ∈ P → j ∈ P → i ≠ j →
        (sget st i).core.id ≠ (sget st j).core.id) →
      (∀ i ∈ P, idShape s st i) →
      ((l.foldl (finalizeStep s) (st, used)).1.length = s.length ∧
       (∀ i, i ∈ P ∨ i ∈ l → ∃ v,
          (sget (l.foldl (finalizeStep s) (st, used)).1 i).core.id = some v ∧
          v ∈ (l.foldl (finalizeStep s) (st, used)).2) ∧
       (∀ i j, (i ∈ P ∨ i ∈ l) → (j ∈ P ∨ j ∈ l) → i ≠ j →
          (sget (l.foldl (finalizeStep s) (st, used)).1 i).core.id ≠
          (sget (l.foldl (finalizeStep s) (st, used)).1 j).core.id) ∧
       (∀ i, i ∈ P ∨ i ∈ l →
          idShape s (l.foldl (finalizeStep s) (st, used)).1 i)) := by
  intro l
  induction l with
  | nil =>
      intro st used P _ _ _ hlen hids hdistinct hshape
      refine ⟨hlen, ?_, ?_, ?_⟩
      · intro i hi
        rcases hi with hi | hi
        · exact hids i hi
        · simp at hi
      · intro i j hi hj hne
        rcases hi with hi | hi
        · rcases hj with hj | hj
          · exact hdistinct i j hi hj hne
          · simp at hj
        · simp at hi
      · intro i hi
        rcases hi with hi | hi
        · exact hshape i hi
        · simp at hi
  | cons a l ih =>
      intro st used P hdisj hnd hlt hlen hids hdistinct hshape
      rw [List.foldl_cons]
      have ha : a < s.length := hlt a (List.mem_cons_self _ _)
      have ha' : a < st.length := by rw [hlen]; exact ha
      have hanotP : a ∉ P := hdisj a (List.mem_cons_self _ _)
      have hstep : finalizeStep s (st, used) a =
          (st.set a ((sget st a).withIdOf
            (some (firstFresh (slugOf s (sget s a)) used))),
           firstFresh (slugOf s (sget s a)) used :: used) := rfl
      rw [hstep]
      set fresh := firstFresh (slugOf s (sget s a)) used with hfresh
      set st' := st.set a ((sget st a).withIdOf (some fresh)) with hst'
      have hget_a : sget st' a = (sget st a).withIdOf (some fresh) := by
        rw [hst']; exact sget_set_self st a _ ha'
      have hget_ne : ∀ i, i ≠ a → sget st' i = sget st i := by
        intro i hne
        rw [hst']
        exact sget_set_ne st a i _ (fun h => hne h.symm)
      have hid_a : (sget st' a).core.id = some fresh := by
        rw [hget_a, Def.core_withIdOf]
      have hfreshnm : fresh ∉ used := by
        rw [hfresh]
        exact firstFresh_not_mem _ _
      have hfreshshape : fresh = slugOf s (sget s a) ∨
          ∃ n, 1 ≤ n ∧ fresh = candidate (slugOf s (sget s a)) n := by
        rw [hfresh]
        exact firstFresh_shape _ _
      have happly := ih st' (fresh :: used) (a :: P)
        (fun x hx hmem => by
          rcases List.mem_cons.1 hmem with h1 | h2
          · subst h1; exact (List.nodup_cons.1 hnd).1 hx
          · exact hdisj x (List.mem_cons_of_mem _ hx) h2)
        (List.nodup_cons.1 hnd).2
        (fun x hx => hlt x (List.mem_cons_of_mem _ hx))
        (by rw [hst', List.length_set]; exact hlen)
        (fun i hi => by
          rcases List.mem_cons.1 hi with h1 | h2
          · exact ⟨fresh, by rw [h1]; exact hid_a, List.mem_cons_self _ _⟩
          · have hianota : i ≠ a := fun h => hanotP (h ▸ h2)
            rcases hids i h2 with ⟨v, hv, hvu⟩
            exact ⟨v, by rw [hget_ne i hianota]; exact hv,
              List.mem_cons_of_mem _ hvu⟩)
        (fun i j hi hj hne => by
          rcases List.mem_cons.1 hi with h1 | h2 <;>
            rcases List.mem_cons.1 hj with g1 | g2
          · exact absurd (h1.trans g1.symm) hne
          · have hjnota : j ≠ a := fun h => hanotP (h ▸ g2)
            rw [h1, hid_a, hget_ne j hjnota]
            rcases hids j g2 with ⟨v, hv, hvu⟩
            rw [hv]
            intro hcontra
            have hfv : fresh = v := by
              simpa using hcontra
            exact hfreshnm (hfv ▸ hvu)
          · have hinota : i ≠ a := fun h => hanotP (h ▸ h2)
            rw [g1, hid_a, hget_ne i hinota]
            rcases hids i h2 with ⟨v, hv, hvu⟩
            rw [hv]
            intro hcontra
            have hfv : v = fresh := by
              simpa using hcontra
            exact hfreshnm (hfv ▸ hvu)
          · have hinota : i ≠ a := fun h => hanotP (h ▸ h2)
            have hjnota : j ≠ a := fun h => hanotP (h ▸ g2)
            rw [hget_ne i hinota, hget_ne j hjnota]
            exact hdistinct i j h2 g2 hne)
        (fun i hi => by
          rcases List.mem_cons.1 hi with h1 | h2
          · rw [idShape, h1, hid_a]
            rcases hfreshshape with h | ⟨n, hn, h⟩
            · exact Or.inl (by rw [h])
            · exact Or.inr ⟨n, hn, by rw [h]⟩
          · have hianota : i ≠ a := fun h => hanotP (h ▸ h2)
            rw [idShape, hget_ne i hianota]
            exact hshape i h2)
      refine ⟨happly.1, ?_, ?_, ?_⟩
      · intro i hi
        apply happly.2.1
        rcases hi with hi | hi
        · exact Or.inl (List.mem_cons_of_mem _ hi)
        · rcases List.mem_cons.1 hi with h1 | h2
          · exact Or.inl (h1 ▸ List.mem_cons_self _ _)
          · exact Or.inr h2
      · intro i j hi hj hne
        apply happly.2.2.1 i j ?_ ?_ hne
        · rcases hi with hi | hi
          · exact Or.inl (List.mem_cons_of_mem _ hi)
          · rcases List.mem_cons.1 hi with h1 | h2
            · exact Or.inl (h1 ▸ List.mem_cons_self _ _)
            · exact Or.inr h2
        · rcases hj with hj | hj
          · exact Or.inl (List.mem_cons_of_mem _ hj)
          · rcases List.mem_cons.1 hj with h1 | h2
            · exact Or.inl (h1 ▸ List.mem_cons_self _ _)
            · exact Or.inr h2
      · intro i hi
        apply happly.2.2.2
        rcases hi with hi | hi
        · exact Or.inl (List.mem_cons_of_mem _ hi)
        · rcases List.mem_cons.1 hi with h1 | h2
          · exact Or.inl (h1 ▸ List.mem_cons_self _ _)
          · exact Or.inr h2

/-- C2: identity finalization (modelled from the spec on top of the embedded
`slug` computation) visits all definitions sorted by their pre-finalization
id and assigns each one its slug, or `slug-N` for the smallest `N ≥ 1` not
yet used, this value becoming the definition's id; consequently all
post-finalization ids are pairwise distinct, and every assigned id is the
definition's slug or that slug with a numeric suffix. -/
theorem C2_identity_uniqueness (s : Store) :
    (∀ i j, i < s.length → j < s.length → i ≠ j →
      (sget (finalizeIds s) i).core.id ≠ (sget (finalizeIds s) j).core.id) ∧
    (∀ i, i < s.length →
      (sget (finalizeIds s) i).core.id = some (slugOf s (sget s i)) ∨
      ∃ n, 1 ≤ n ∧ (sget (finalizeIds s) i).core.id
        = some (candidate (slugOf s (sget s i)) n)) := by
  have hperm : (visitOrder s).Perm (List.range s.length) :=
    List.mergeSort_perm _ _
  have hnd : (visitOrder s).Nodup := hperm.nodup_iff.2 (List.nodup_range _)
  have hmem : ∀ i, i < s.length → i ∈ visitOrder s :=
    fun i hi => hperm.mem_iff.2 (List.mem_range.2 hi)
  have hlt : ∀ x ∈ visitOrder s, x < s.length :=
    fun x hx => List.mem_range.1 (hperm.mem_iff.1 hx)
  have h := finalize_fold_inv s (visitOrder s) s [] []
    (fun x _ hx => by simp at hx) hnd hlt rfl
    (fun i hi => by simp at hi)
    (fun i j hi _ _ => by simp at hi)
    (fun i hi => by simp at hi)
  constructor
  · intro i j hi hj hne
    rw [finalizeIds]
    exact h.2.2.1 i j (Or.inr (hmem i hi)) (Or.inr (hmem j hj)) hne
  · intro i hi
    have hs := h.2.2.2 i (Or.inr (hmem i hi))
    rw [idShape] at hs
    rw [finalizeIds]
    exact hs

/-- Two functions both named `foo` in unrelated scopes: their raw slugs
collide, so finalization must disambiguate. -/
def c2Store : Store :=
  [.mk { kind := .func, id := some "a", qualified_name := some "ns1::foo",
         name := some "foo" } [],
   .mk { kind := .func, id := some "b", qualified_name := some "ns2::foo",
         name := some "foo" } []]

/-- Witness for C2: on `c2Store` the two finalized ids differ, and each is
the slug `fn-foo` or a numbered variant of it. -/
theorem C2_identity_uniqueness_witness :
    (sget (finalizeIds c2Store) 0).core.id ≠ (sget (finalizeIds c2Store) 1).core.id ∧
    ((sget (finalizeIds c2Store) 0).core.id = some (slugOf c2Store (sget c2Store 0)) ∨
      ∃ n, 1 ≤ n ∧ (sget (finalizeIds c2Store) 0).core.id
        = some (candidate (slugOf c2Store (sget c2Store 0)) n)) :=
  ⟨(C2_identity_uniqueness c2Store).1 0 1 (by decide) (by decide) (by decide),
   (C2_identity_uniqueness c2Store).2 0 (by decide)⟩

end Dox
